import Mathlib

/-!
Shallow embedding of the scalar reverse-mode automatic-differentiation engine
of `src/source/value.ts` (class `Value`).

Modelling decisions:
* JS numbers are modelled by `ℚ` (exact arithmetic).  In exact rational
  arithmetic every value is finite, so the `Number.isFinite` validation of the
  `data`/`grad` setters and the overflow check of `pow` always pass; they are
  therefore not reified as failure branches.
* The transcendental library functions `Math.exp`, `Math.log`, `Math.tanh` and
  the power operator `**` are kept abstract as the fields of a `MathModel`
  structure: no claim depends on their numeric values, only on how the engine
  plumbs them around.
* A `Value` object becomes a `Node` record; the object graph becomes an arena
  (`St`) of nodes addressed by their creation index, which plays the role of
  the monotonically increasing `#id`.  The gradient closure installed by each
  operation builder is represented by the `GradRule` tag it closes over
  (operands are the captured ids); `runRule` is the body of each closure,
  transliterated case by case from the source.
* Thrown `Error`s become `Except String` results; the message strings are the
  ones in the source.
-/

namespace Micrograd

/-- The transcendental functions of the JS `Math` library used by `value.ts`,
kept abstract: `fpow a b` is the JS expression `a ** b`. -/
structure MathModel where
  exp : ℚ → ℚ
  log : ℚ → ℚ
  tanh : ℚ → ℚ
  fpow : ℚ → ℚ → ℚ

/-- The gradient closure a builder installs as `#computeGradient`, identified
by the operation together with the ids of the operand nodes it captured.
`leaf` is the no-op closure `() => undefined` set by the constructor. -/
inductive GradRule where
  | leaf : GradRule
  | add (a b : Nat) : GradRule
  | sub (a b : Nat) : GradRule
  | mul (a b : Nat) : GradRule
  | div (a b : Nat) : GradRule
  | neg (a : Nat) : GradRule
  | pow (a b : Nat) : GradRule
  | exp (a : Nat) : GradRule
  | log (a : Nat) : GradRule
  | tanh (a : Nat) : GradRule
  | sigmoid (a : Nat) : GradRule
  | relu (a : Nat) : GradRule
  deriving DecidableEq, Repr

/-- One `Value` object: `data`, `grad`, the higher-order gradient cache
(`#higherOrderGrads`, an association list keyed by the order), the readonly
`label`, `children` (operand ids in order) and `operation` tag, and the
installed gradient closure. -/
structure Node where
  data : ℚ
  grad : ℚ
  hog : List (Int × ℚ)
  label : String
  children : List Nat
  operation : String
  rule : GradRule
  deriving DecidableEq, Repr

/-- The default-constructed node: `new Value(d)` with `d = 0` and the
constructor defaults (`grad = 0`, empty cache, label `''`, no children,
operation `'+'`, no-op gradient closure). -/
def defaultNode : Node :=
  { data := 0, grad := 0, hog := [], label := "", children := []
  , operation := "+", rule := GradRule.leaf }

instance : Inhabited Node := ⟨defaultNode⟩

/-- The arena of all `Value` objects created so far; a node's id is its index
(the source's `value_<k>` instance counter). -/
structure St where
  nodes : List Node
  deriving DecidableEq, Repr

/-- Dereference an id (total: a nonexistent id yields `defaultNode`; ids that
reach this default never occur in graphs built through the API). -/
def St.get (g : St) (n : Nat) : Node :=
  g.nodes.getD n defaultNode

/-- Allocate a new node, returning its id and the grown arena. -/
def St.push (g : St) (nd : Node) : Nat × St :=
  (g.nodes.length, ⟨g.nodes ++ [nd]⟩)

/-- Replace node `n` by `f` applied to it (in-place field mutation). -/
def updN (g : St) (n : Nat) (f : Node → Node) : St :=
  ⟨g.nodes.set n (f (g.get n))⟩

/-- The `grad` setter (`node.grad = q`; the finiteness validation is vacuous
over `ℚ`). -/
def setGrad (g : St) (n : Nat) (q : ℚ) : St :=
  updN g n (fun nd => { nd with grad := q })

/-- A gradient accumulation `node.grad += q`. -/
def addGrad (g : St) (n : Nat) (q : ℚ) : St :=
  updN g n (fun nd => { nd with grad := nd.grad + q })

/-- Read a node's current gradient. -/
def gradOf (g : St) (n : Nat) : ℚ :=
  (g.get n).grad

/-- First-match lookup in the association-list model of a JS `Map`. -/
def assocGet (l : List (Int × ℚ)) (k : Int) : Option ℚ :=
  match l with
  | [] => none
  | p :: rest => if p.1 = k then some p.2 else assocGet rest k

/-- `Map.set`: record `k ↦ v`, overwriting any previous binding of `k`. -/
def assocSet (l : List (Int × ℚ)) (k : Int) (v : ℚ) : List (Int × ℚ) :=
  (l.filter (fun p => decide (p.1 ≠ k))) ++ [(k, v)]

/-- `node.#higherOrderGrads.set(k, v)`. -/
def setHogN (g : St) (n : Nat) (k : Int) (v : ℚ) : St :=
  updN g n (fun nd => { nd with hog := assocSet nd.hog k v })

/-- `Number.EPSILON`. -/
def EPS : ℚ := 1 / 2 ^ 52

/-- `Number.isInteger` on a rational. -/
def isIntQ (q : ℚ) : Prop := q.den = 1

instance (q : ℚ) : Decidable (isIntQ q) := by
  unfold isIntQ; infer_instance

/-- `new Value(data, label)`: a leaf node (constructor defaults for the
remaining fields). -/
def mkValue (g : St) (d : ℚ) (label : String) : Nat × St :=
  g.push { data := d, grad := 0, hog := [], label := label, children := []
         , operation := "+", rule := GradRule.leaf }

/-- `Value.add(a, b, label)` on already-coerced operands. -/
def add (g : St) (a b : Nat) (label : String) : Nat × St :=
  g.push { data := (g.get a).data + (g.get b).data, grad := 0, hog := []
         , label := label, children := [a, b], operation := "add"
         , rule := GradRule.add a b }

/-- `Value.sub(a, b, label)`. -/
def sub (g : St) (a b : Nat) (label : String) : Nat × St :=
  g.push { data := (g.get a).data - (g.get b).data, grad := 0, hog := []
         , label := label, children := [a, b], operation := "sub"
         , rule := GradRule.sub a b }

/-- `Value.mul(a, b, label)`. -/
def mul (g : St) (a b : Nat) (label : String) : Nat × St :=
  g.push { data := (g.get a).data * (g.get b).data, grad := 0, hog := []
         , label := label, children := [a, b], operation := "mul"
         , rule := GradRule.mul a b }

/-- `Value.div(a, b, label)`: fails when `|b.data| < Number.EPSILON`. -/
def div (g : St) (a b : Nat) (label : String) : Except String (Nat × St) :=
  if |(g.get b).data| < EPS then
    Except.error "Division by near-zero value"
  else
    Except.ok (g.push
      { data := (g.get a).data / (g.get b).data, grad := 0, hog := []
      , label := label, children := [a, b], operation := "div"
      , rule := GradRule.div a b })

/-- `Value.negate(a, label)`. -/
def negate (g : St) (a : Nat) (label : String) : Nat × St :=
  g.push { data := (g.get a).data * (-1), grad := 0, hog := []
         , label := label, children := [a], operation := "neg"
         , rule := GradRule.neg a }

/-- `Value.pow(a, b, label)`: the domain policy of the source, including the
early return `new Value(0, label)` (a leaf with constructor defaults) for a
zero base and positive exponent.  Over `ℚ` the `Number.isFinite(result)`
overflow check always passes. -/
def pow (M : MathModel) (g : St) (a b : Nat) (label : String) :
    Except String (Nat × St) :=
  if (g.get a).data = 0 then
    if (g.get b).data = 0 then
      Except.error "Cannot raise 0 to zero or negative power"
    else if (g.get b).data < 0 then
      Except.error "Division by zero in power operation"
    else
      Except.ok (g.push
        { data := 0, grad := 0, hog := [], label := label, children := []
        , operation := "+", rule := GradRule.leaf })
  else if (g.get a).data < 0 ∧ ¬ isIntQ (g.get b).data then
    Except.error "Negative numbers cannot be raised to non-integer powers"
  else
    Except.ok (g.push
      { data := M.fpow (g.get a).data (g.get b).data, grad := 0, hog := []
      , label := label, children := [a, b], operation := "pow"
      , rule := GradRule.pow a b })

/-- `Value.exp(a, label)`. -/
def exp (M : MathModel) (g : St) (a : Nat) (label : String) : Nat × St :=
  g.push { data := M.exp (g.get a).data, grad := 0, hog := []
         , label := label, children := [a], operation := "exp"
         , rule := GradRule.exp a }

/-- `Value.log(a, label)`: fails on a non-positive argument. -/
def log (M : MathModel) (g : St) (a : Nat) (label : String) :
    Except String (Nat × St) :=
  if (g.get a).data ≤ 0 then
    Except.error "Log of non-positive number"
  else
    Except.ok (g.push
      { data := M.log (g.get a).data, grad := 0, hog := []
      , label := label, children := [a], operation := "log"
      , rule := GradRule.log a })

/-- `Value.tanh(a, label)`. -/
def tanh (M : MathModel) (g : St) (a : Nat) (label : String) : Nat × St :=
  g.push { data := M.tanh (g.get a).data, grad := 0, hog := []
         , label := label, children := [a], operation := "tanh"
         , rule := GradRule.tanh a }

/-- `Value.sigmoid(a, label)`: forward value `1 / (1 + Math.exp(-a))`. -/
def sigmoid (M : MathModel) (g : St) (a : Nat) (label : String) : Nat × St :=
  g.push { data := 1 / (1 + M.exp (-(g.get a).data)), grad := 0, hog := []
         , label := label, children := [a], operation := "sigmoid"
         , rule := GradRule.sigmoid a }

/-- `Value.relu(a, label)`: forward value `Math.max(0, a)`. -/
def relu (g : St) (a : Nat) (label : String) : Nat × St :=
  g.push { data := max 0 (g.get a).data, grad := 0, hog := []
         , label := label, children := [a], operation := "relu"
         , rule := GradRule.relu a }

/-- The body of `node.#computeGradient()` for node `n`, transliterated closure
by closure from the source.  Each `+=` is performed sequentially on the
current state, re-reading the fields it mentions, exactly as the JS statements
do.  Only the `pow` closure can throw (its backward-time zero-base check). -/
def runRule (M : MathModel) (g : St) (n : Nat) : Except String St :=
  match (g.get n).rule with
  | GradRule.leaf => Except.ok g
  | GradRule.add a b =>
      let g1 := addGrad g a (1 * (g.get n).grad)
      Except.ok (addGrad g1 b (1 * (g1.get n).grad))
  | GradRule.sub a b =>
      let g1 := addGrad g a (1 * (g.get n).grad)
      Except.ok (addGrad g1 b ((-1) * (g1.get n).grad))
  | GradRule.mul a b =>
      let g1 := addGrad g a ((g.get b).data * (g.get n).grad)
      Except.ok (addGrad g1 b ((g1.get a).data * (g1.get n).grad))
  | GradRule.div a b =>
      let g1 := addGrad g a ((1 / (g.get b).data) * (g.get n).grad)
      Except.ok (addGrad g1 b
        ((-(g1.get a).data / ((g1.get b).data * (g1.get b).data))
          * (g1.get n).grad))
  | GradRule.neg a =>
      Except.ok (addGrad g a ((-1) * (g.get n).grad))
  | GradRule.pow a b =>
      if |(g.get a).data| ≤ EPS then
        if (g.get b).data ≤ 0 then
          Except.error "Cannot raise 0 to zero or negative power"
        else
          let g1 := addGrad g a 0
          Except.ok (addGrad g1 b 0)
      else
        let g1 := addGrad g a
          ((g.get b).data * M.fpow (g.get a).data ((g.get b).data - 1)
            * (g.get n).grad)
        Except.ok (addGrad g1 b
          (M.fpow (g1.get a).data (g1.get b).data * M.log |(g1.get a).data|
            * (g1.get n).grad))
  | GradRule.exp a =>
      Except.ok (addGrad g a ((g.get n).data * (g.get n).grad))
  | GradRule.log a =>
      Except.ok (addGrad g a ((1 / (g.get a).data) * (g.get n).grad))
  | GradRule.tanh a =>
      Except.ok (addGrad g a ((1 - (g.get n).data ^ 2) * (g.get n).grad))
  | GradRule.sigmoid a =>
      Except.ok (addGrad g a
        ((g.get n).data * (1 - (g.get n).data) * (g.get n).grad))
  | GradRule.relu a =>
      Except.ok (addGrad g a
        ((if 0 < (g.get a).data then (1 : ℚ) else 0) * (g.get n).grad))

/-- First-occurrence deduplication: `Array.from(new Set(xs))` (a JS `Set`
iterates in insertion order). -/
def dedupFirst (l : List Nat) : List Nat :=
  l.foldl (fun acc x => if x ∈ acc then acc else acc ++ [x]) []

/-- `node.prev()`: the distinct children, in first-occurrence order. -/
def prevOf (g : St) (n : Nat) : List Nat :=
  dedupFirst (g.get n).children

/-- One level of the `topoSort` DFS inside `backward`: processes a worklist
of pending sibling nodes in order; `rec` performs the recursive descent into
a node's `prev()` one level deeper.  The first component of the result is the
`visited` set, the second the `stack` in push order (each node appended after
its descendants). -/
def topoAux (g : St)
    (rec : List Nat → List Nat → List Nat → List Nat × List Nat) :
    List Nat → List Nat → List Nat → List Nat × List Nat
  | vis, stk, [] => (vis, stk)
  | vis, stk, n :: rest =>
    if n ∈ vis then topoAux g rec vis stk rest
    else
      let p := rec (n :: vis) stk (prevOf g n)
      topoAux g rec p.1 (p.2 ++ [n]) rest

/-- The `topoSort` DFS with an explicit depth budget: descending one level
costs one unit of fuel.  `backward` supplies fuel exceeding every id, which
is more than the graph's depth (children are created before parents, so every
edge decreases the id). -/
def topoGo (g : St) : Nat → List Nat → List Nat → List Nat → List Nat × List Nat
  | 0, vis, stk, _ => (vis, stk)
  | f + 1, vis, stk, pending => topoAux g (topoGo g f) vis stk pending

/-- `topoSort(this)` followed by reading off the `stack`: the reachable nodes
in an order where every node's children precede it, the root last. -/
def topoList (g : St) (root : Nat) : List Nat :=
  (topoGo g (g.nodes.length + 1) [] [] [root]).2

/-- The `for (let i = 2; i <= order; i++)` loop of the higher-order branch of
`backward`, for the node `n` currently popped from the stack, counted down by
the iterations remaining: with `cnt + 1` iterations left the current `i` is
`o - cnt`.  `bw` is the full engine for the nested `node.backward(i - 1)`
calls (always at an order strictly below `o`). -/
def hoLoopAux (bw : Nat → St → Nat → Except String St) (o n : Nat) :
    Nat → St → Except String St
  | 0, g => Except.ok g
  | cnt + 1, g =>
    match bw (o - cnt - 1) g n with
    | Except.error e => Except.error e
    | Except.ok g1 =>
        hoLoopAux bw o n cnt
          (setHogN g1 n (Int.ofNat (o - cnt)) (gradOf g1 n))

/-- The `while (stack.length > 0)` loop of `backward` at order `o`, over the
remaining reversed stack: pop each node, fire its gradient closure, and when
`order > 1` store the order-1 gradient and run the higher-order loop. -/
def stkAux (M : MathModel) (bw : Nat → St → Nat → Except String St)
    (o : Nat) : List Nat → St → Except String St
  | [], g => Except.ok g
  | n :: rest, g =>
    match runRule M g n with
    | Except.error e => Except.error e
    | Except.ok g1 =>
      if 1 < o then
        match hoLoopAux bw o n (o - 1) (setHogN g1 n 1 (gradOf g1 n)) with
        | Except.error e => Except.error e
        | Except.ok g2 => stkAux M bw o rest g2
      else stkAux M bw o rest g1

/-- The engine of `backward` with a recursion budget: `bwFuel M f o g root`
runs the whole pass of order `o` from `root` (topological sort, seed
`root.grad = 1`, stack loop).  Nested `node.backward(i - 1)` calls run at
strictly smaller orders with one unit of fuel less; since every nested order
is below the current one, fuel equal to the order (as supplied by `backward`)
always suffices, and the fuel-exhausted branch is unreachable. -/
def bwFuel (M : MathModel) : Nat → Nat → St → Nat → Except String St
  | 0, _, g, _ => Except.ok g
  | f + 1, o, g, root =>
      stkAux M (bwFuel M f) o (topoList g root).reverse (setGrad g root 1)

/-- `node.backward(order)`: rejects `order < 1`, otherwise runs the pass.
The default call `backward()` is `backward 1`. -/
def backward (M : MathModel) (g : St) (root : Nat) (order : Int) :
    Except String St :=
  if order < 1 then Except.error "Order must be >= 1"
  else bwFuel M order.toNat order.toNat g root

/-- `node.getHigherOrderGradient(order)`: rejects `order < 1`; an order never
stored in the cache reads as `0` (`?? 0`). -/
def getHigherOrderGradient (g : St) (n : Nat) (order : Int) :
    Except String ℚ :=
  if order < 1 then Except.error "Order must be >= 1"
  else Except.ok ((assocGet (g.get n).hog order).getD 0)

/-- The shared recursion scheme of `resetGrad`, `clipGradients` and
`checkGradientHealth`: a depth-first walk over raw `children` with a
visited set, applying `act` at each first visit before descending.  `σ` is
the mutable context (`St`, possibly with accumulators); `ch` reads a node's
current children from it.  `visitAux` processes a worklist of pending
same-level nodes in order; `rec` performs the descent into a node's children
one level deeper. -/
def visitAux {σ : Type} (ch : σ → Nat → List Nat) (act : σ → Nat → σ)
    (rec : σ → List Nat → List Nat → σ × List Nat) :
    σ → List Nat → List Nat → σ × List Nat
  | s, vis, [] => (s, vis)
  | s, vis, n :: rest =>
    if n ∈ vis then visitAux ch act rec s vis rest
    else
      let s1 := act s n
      let p := rec s1 (n :: vis) (ch s1 n)
      visitAux ch act rec p.1 p.2 rest

/-- The fuelled walk: one level of siblings is processed by `visitAux`, a
descent into a node's children costs one unit of fuel. -/
def visitL {σ : Type} (ch : σ → Nat → List Nat) (act : σ → Nat → σ) :
    Nat → σ → List Nat → List Nat → σ × List Nat
  | 0, s, vis, _ => (s, vis)
  | f + 1, s, vis, pending => visitAux ch act (visitL ch act f) s vis pending

/-- Children of a node, read from an `St` context. -/
def chSt (g : St) (n : Nat) : List Nat := (g.get n).children

/-- The per-node action of `resetGrad`: `node.grad = 0` and
`node.#higherOrderGrads.clear()`. -/
def zeroAct (g : St) (n : Nat) : St :=
  updN g n (fun nd => { nd with grad := 0, hog := [] })

/-- `node.resetGrad()`. -/
def resetGrad (g : St) (root : Nat) : St :=
  (visitL chSt zeroAct (g.nodes.length + 1) g [] [root]).1

/-- The per-node action of `clipGradients(maxNorm)`: if `|grad| > maxNorm`,
`node.grad *= maxNorm / |grad|`. -/
def clipAct (m : ℚ) (g : St) (n : Nat) : St :=
  updN g n (fun nd =>
    if m < |nd.grad| then { nd with grad := nd.grad * (m / |nd.grad|) }
    else nd)

/-- `node.clipGradients(maxNorm)`. -/
def clipGradients (g : St) (m : ℚ) (root : Nat) : St :=
  (visitL chSt (clipAct m) (g.nodes.length + 1) g [] [root]).1

/-- `Math.max` folding for `maxGrad`: `none` models the initial
`Number.NEGATIVE_INFINITY`. -/
def omax (o : Option ℚ) (q : ℚ) : Option ℚ :=
  match o with
  | none => some q
  | some a => some (max a q)

/-- `Math.min` folding for `minGrad`: `none` models the initial
`Number.POSITIVE_INFINITY`. -/
def omin (o : Option ℚ) (q : ℚ) : Option ℚ :=
  match o with
  | none => some q
  | some a => some (min a q)

/-- The per-node action of `checkGradientHealth`: nodes with `grad !== 0`
fold their absolute gradient into the running extrema. -/
def healthAct (p : St × Option ℚ × Option ℚ) (n : Nat) :
    St × Option ℚ × Option ℚ :=
  if (p.1.get n).grad ≠ 0 then
    (p.1, omax p.2.1 |(p.1.get n).grad|, omin p.2.2 |(p.1.get n).grad|)
  else p

/-- The record returned by `checkGradientHealth`.  `maxGrad = none` models
the untouched `-Infinity` initial value, `minGrad = none` the untouched
`+Infinity` (no reachable node had a nonzero gradient). -/
structure Health where
  hasExploding : Bool
  hasVanishing : Bool
  maxGrad : Option ℚ
  minGrad : Option ℚ
  deriving DecidableEq, Repr

/-- Children of a node, read from the `St` component of the
`checkGradientHealth` context. -/
def chPair (p : St × Option ℚ × Option ℚ) (n : Nat) : List Nat := chSt p.1 n

/-- `node.checkGradientHealth()`: `hasExploding = maxGrad > 1e3` and
`hasVanishing = minGrad < 1e-3` (both false on the infinite initial values,
as in JS). -/
def checkGradientHealth (g : St) (root : Nat) : Health :=
  let r := (visitL chPair healthAct (g.nodes.length + 1)
    (g, none, none) [] [root]).1
  { hasExploding := match r.2.1 with
      | none => false
      | some q => decide (1000 < q)
  , hasVanishing := match r.2.2 with
      | none => false
      | some q => decide (q < 1 / 1000)
  , maxGrad := r.2.1
  , minGrad := r.2.2 }

/-- Whether a closure's gradient writes go through the validated `grad`
setter (`valueA.grad += …`) or bypass it via the raw private field
(`valueA.#grad += …`).  In the source every closure uses the setter except
`tanh`, whose closure writes `valueA.#grad` directly (line 364). -/
def ruleUsesSetter : GradRule → Bool
  | GradRule.tanh _ => false
  | _ => true

/-- A concrete instantiation of the abstract `Math` functions, used for the
closed witness computations.  What matters for the claims is only `fpow` on
integer exponents, where it is exact rational exponentiation, as `**` is on
such inputs. -/
def Mstd : MathModel :=
  { exp := fun _ => 1, log := fun _ => 0, tanh := fun _ => 0
  , fpow := fun a b => if b.den = 1 then a ^ b.num else 0 }

/-- Project the state out of a completed pass (the error case never occurs
where this is used). -/
def resSt (e : Except String St) : St :=
  match e with
  | Except.ok g => g
  | Except.error _ => ⟨[]⟩

/-- Read a node's gradient out of a completed pass (`none` if it failed). -/
def gradAfter (e : Except String St) (n : Nat) : Option ℚ :=
  match e with
  | Except.ok g => some (g.get n).grad
  | Except.error _ => none

/-- Reachability through a children map: `Reach ch n m` iff `m` is `n` itself
or a node reachable from one of `n`'s children. -/
inductive Reach (ch : Nat → List Nat) : Nat → Nat → Prop where
  | refl (n : Nat) : Reach ch n n
  | head {n c m : Nat} (hc : c ∈ ch n) (h : Reach ch c m) : Reach ch n m

/-- Every edge of the arena decreases the id: children are always created
before their parent.  Every graph built through the operation builders has
this shape, and it bounds the depth of every traversal. -/
def Acyc (g : St) : Prop :=
  ∀ n, n < g.nodes.length → ∀ c ∈ (g.get n).children, c < n

instance (g : St) : Decidable (Acyc g) := by
  unfold Acyc; infer_instance

/-- Backward passes leave the structural fields of every node untouched:
arena size, `data`, `children`, `operation`, `label` and the installed
closure. -/
def presStruct (g g' : St) : Prop :=
  g'.nodes.length = g.nodes.length ∧
  ∀ m, (g'.get m).data = (g.get m).data ∧
    (g'.get m).children = (g.get m).children ∧
    (g'.get m).operation = (g.get m).operation ∧
    (g'.get m).label = (g.get m).label ∧
    (g'.get m).rule = (g.get m).rule

/-- The higher-order gradient caches are untouched. -/
def presHog (g g' : St) : Prop :=
  ∀ m, (g'.get m).hog = (g.get m).hog

/-- `q` is at most the running maximum `o` (which in particular is not the
initial `-Infinity`). -/
def obnd (o : Option ℚ) (q : ℚ) : Prop :=
  ∃ a, o = some a ∧ q ≤ a

/-- `q` is at least the running minimum `o` (which in particular is not the
initial `+Infinity`). -/
def obnd' (o : Option ℚ) (q : ℚ) : Prop :=
  ∃ a, o = some a ∧ a ≤ q

/-- What one call of the visited-set walk does, relative to the incoming
context `s`, visited set `vis` and worklist `pending`: the nodes newly marked
(`news`) are fresh, duplicate-free, reachable from the worklist, closed under
children up to the old visited set, cover the worklist, and the context is
the fold of the action over them in marking order. -/
def WalkOut {σ : Type} (ch : σ → Nat → List Nat) (act : σ → Nat → σ)
    (s : σ) (vis pending : List Nat) (out : σ × List Nat) : Prop :=
  ∃ news : List Nat,
    out.2 = news ++ vis ∧
    out.1 = news.reverse.foldl act s ∧
    news.Nodup ∧
    (∀ m ∈ news, m ∉ vis) ∧
    (∀ m ∈ pending, m ∈ news ++ vis) ∧
    (∀ m ∈ news, ∃ p ∈ pending, Reach (ch s) p m) ∧
    (∀ m ∈ news, ∀ c ∈ ch s m, c ∈ news ++ vis)

/-- The diamond graph of the accumulation test: node 0 is `a = Value(3)`,
node 1 is `a + a`, node 2 is `c = (a + a) * a`. -/
def gC1 : St :=
  let p0 := mkValue ⟨[]⟩ 3 "a"
  let p1 := add p0.2 0 0 ""
  (mul p1.2 1 0 "").2

/-- `gC1` after `c.backward()`: gradients 12, 3, 1 at nodes 0, 1, 2. -/
def gB1 : St := resSt (backward Mstd gC1 2 1)

/-- A `pow` graph whose base is exactly `Number.EPSILON` (nonzero): node 0 is
`a = Value(2^-52)`, node 1 is `b = Value(2)`, node 2 is `a ** b`. -/
def gC2 : St :=
  resSt ((pow Mstd (mkValue (mkValue ⟨[]⟩ EPS "a").2 2 "b").2 0 1 "").map
    Prod.snd)

/-- A `pow` graph with an ordinary base: node 0 is `a = Value(2)`, node 1 is
`b = Value(3)`, node 2 is `a ** b`. -/
def gW2 : St :=
  resSt ((pow Mstd (mkValue (mkValue ⟨[]⟩ 2 "a").2 3 "b").2 0 1 "").map
    Prod.snd)

/-- Two leaves for the `pow(0, 1)` zero-base call: node 0 is `Value(0)`,
node 1 is `Value(1)`. -/
def gC3 : St :=
  (mkValue (mkValue ⟨[]⟩ 0 "a").2 1 "b").2

/-- Leaves `a = Value(2)`, `b = Value(4)` for the `div` witness. -/
def gW5 : St :=
  (mkValue (mkValue ⟨[]⟩ 2 "a").2 4 "b").2

/-- A single leaf whose gradient has been set to 5 through the `grad` setter
(`setGrad`), for the `clipGradients` counterexample. -/
def gW7 : St :=
  setGrad (mkValue ⟨[]⟩ 0 "a").2 0 5

section

attribute [local semireducible] Rat.add Rat.mul Rat.sub Rat.inv

/-- Dereferencing beyond the arena yields the default node. -/
theorem get_oob {g : St} {n : Nat} (h : g.nodes.length ≤ n) :
    g.get n = defaultNode := by
  simp [St.get, List.getD_eq_getElem?_getD, List.getElem?_eq_none h]

/-- In-place mutation does not change the arena size. -/
theorem updN_length (g : St) (n : Nat) (f : Node → Node) :
    (updN g n f).nodes.length = g.nodes.length := by
  simp [updN]

/-- Characterization of dereferencing after an in-place mutation. -/
theorem get_updN (g : St) (n : Nat) (f : Node → Node) (m : Nat) :
    (updN g n f).get m =
      if n < g.nodes.length ∧ m = n then f (g.get n) else g.get m := by
  by_cases hm : m = n
  · subst hm
    by_cases hn : m < g.nodes.length
    · simp [updN, St.get, List.getD_eq_getElem?_getD, List.getElem?_set_self hn,
        hn]
    · simp [updN, St.get, hn, List.set_eq_of_length_le (Nat.le_of_not_lt hn)]
  · simp [updN, St.get, List.getD_eq_getElem?_getD,
      List.getElem?_set_ne (Ne.symm hm), hm]

/-- The node just pushed is read back unchanged. -/
theorem get_push_self (g : St) (nd : Node) :
    (g.push nd).2.get (g.push nd).1 = nd := by
  simp [St.push, St.get, List.getD_eq_getElem?_getD]

/-- Acyclicity, extended to out-of-range ids (whose children list is empty). -/
theorem acyc_all {g : St} (h : Acyc g) :
    ∀ n c, c ∈ (g.get n).children → c < n := by
  intro n c hc
  by_cases hn : n < g.nodes.length
  · exact h n hn c hc
  · rw [get_oob (Nat.le_of_not_lt hn)] at hc
    simp [defaultNode] at hc

/-- Reachability transports along pointwise-equal children maps. -/
theorem reach_congr {ch1 ch2 : Nat → List Nat} (h : ∀ x, ch1 x = ch2 x)
    {a b : Nat} (r : Reach ch1 a b) : Reach ch2 a b := by
  induction r with
  | refl n => exact Reach.refl n
  | head hc _ ih => exact Reach.head (h _ ▸ hc) ih

/-- Under the decreasing-edge invariant, reachable ids never exceed the
start. -/
theorem reach_le {ch : Nat → List Nat} (hb : ∀ n c, c ∈ ch n → c < n)
    {a b : Nat} (r : Reach ch a b) : b ≤ a := by
  induction r with
  | refl n => exact Nat.le_refl n
  | head hc _ ih => exact Nat.le_trans ih (Nat.le_of_lt (hb _ _ hc))

/-- A set containing the start of a walk and closed under children contains
everything reachable. -/
theorem reach_closed {ch : Nat → List Nat} {news : List Nat}
    (hcl : ∀ m ∈ news, ∀ c ∈ ch m, c ∈ news) {a b : Nat}
    (r : Reach ch a b) (ha : a ∈ news) : b ∈ news := by
  induction r with
  | refl n => exact ha
  | head hc _ ih => exact ih (hcl _ ha _ hc)

/-- C1.  Gradient accumulation at shared nodes: for `a = Value(3)`,
`c = (a + a) * a`, after `c.backward()` the gradient of `a` is `12` — the sum
`2·a·1 + a·2` of the path-wise contributions at `a = 3`; each node's gradient
rule fires once and its contributions are added, never overwritten. -/
theorem c1_diamond_gradient_accumulation (M : MathModel) :
    gradAfter (backward M gC1 2 1) 0 = some 12 ∧
    (2 * 3 * 1 + 3 * 2 : ℚ) = 12 := by
  exact ⟨rfl, by norm_num⟩

/-- C2 (counterexample).  For the `pow` node of `gC2` the base is
`Number.EPSILON ≠ 0`, the exponent is `2`, and the output gradient is seeded
to `1`, yet after `backward()` the base's gradient is `0` and not the claimed
`b · a^(b-1) · g = 2^-51`: the closure's `|a| ≤ Number.EPSILON` branch added
`0` instead of the formula. -/
theorem c2_pow_epsilon_base_counterexample :
    (gC2.get 0).data ≠ 0 ∧
    gradAfter (backward Mstd gC2 2 1) 0 = some 0 ∧
    (gC2.get 1).data * Mstd.fpow (gC2.get 0).data ((gC2.get 1).data - 1) * 1
      ≠ 0 := by
  refine ⟨by decide, by decide, by decide⟩

/-- C2 (amended).  For a `pow` node whose base satisfies
`|a.data| > Number.EPSILON` (rather than merely `a.data ≠ 0`), firing the
gradient closure adds `b · a^(b-1) · g` to `a`'s gradient and then
`a^b · ln|a| · g` to `b`'s gradient, `g` being the output's gradient at the
moment of each write. -/
theorem c2_pow_backward_formula (M : MathModel) (g : St) (n a b : Nat)
    (hr : (g.get n).rule = GradRule.pow a b)
    (ha : EPS < |(g.get a).data|) :
    runRule M g n =
      Except.ok
        (addGrad
          (addGrad g a
            ((g.get b).data * M.fpow (g.get a).data ((g.get b).data - 1)
              * (g.get n).grad))
          b
          (M.fpow
              ((addGrad g a
                ((g.get b).data * M.fpow (g.get a).data ((g.get b).data - 1)
                  * (g.get n).grad)).get a).data
              (((addGrad g a
                ((g.get b).data * M.fpow (g.get a).data ((g.get b).data - 1)
                  * (g.get n).grad)).get b).data)
            * M.log
              |((addGrad g a
                ((g.get b).data * M.fpow (g.get a).data ((g.get b).data - 1)
                  * (g.get n).grad)).get a).data|
            * ((addGrad g a
                ((g.get b).data * M.fpow (g.get a).data ((g.get b).data - 1)
                  * (g.get n).grad)).get n).grad)) := by
  simp only [runRule, hr]
  rw [if_neg (not_le.mpr ha)]

/-- Witness for C2 (amended): the `pow` node of `gW2` (base 2, exponent 3)
satisfies the hypotheses, and the theorem computes its closure's effect. -/
theorem c2_pow_backward_formula_witness :
    EPS < |(gW2.get 0).data| ∧
    runRule Mstd gW2 2 =
      Except.ok
        (addGrad
          (addGrad gW2 0
            ((gW2.get 1).data * Mstd.fpow (gW2.get 0).data
              ((gW2.get 1).data - 1) * (gW2.get 2).grad))
          1
          (Mstd.fpow
              ((addGrad gW2 0
                ((gW2.get 1).data * Mstd.fpow (gW2.get 0).data
                  ((gW2.get 1).data - 1) * (gW2.get 2).grad)).get 0).data
              (((addGrad gW2 0
                ((gW2.get 1).data * Mstd.fpow (gW2.get 0).data
                  ((gW2.get 1).data - 1) * (gW2.get 2).grad)).get 1).data)
            * Mstd.log
              |((addGrad gW2 0
                ((gW2.get 1).data * Mstd.fpow (gW2.get 0).data
                  ((gW2.get 1).data - 1) * (gW2.get 2).grad)).get 0).data|
            * ((addGrad gW2 0
                ((gW2.get 1).data * Mstd.fpow (gW2.get 0).data
                  ((gW2.get 1).data - 1) * (gW2.get 2).grad)).get 2).grad)) :=
  ⟨by decide, c2_pow_backward_formula Mstd gW2 2 0 1 (by decide) (by decide)⟩

/-- C4.  The gradient write of the `tanh` closure bypasses the validated
`grad` setter: it assigns the raw private field (`valueA.#grad += …`,
line 364 of `value.ts`), unlike every other operation's closure, so not
every gradient write during a backward pass is finiteness-validated. -/
theorem c4_tanh_write_bypasses_setter :
    ruleUsesSetter (GradRule.tanh 0) = false ∧
    ruleUsesSetter (GradRule.sigmoid 0) = true := ⟨rfl, rfl⟩

/-- C9.  `backward` and `getHigherOrderGradient` reject every `order < 1`
with the `Order must be >= 1` error — `backward` before touching any state,
so all gradients are left unchanged — and querying a valid order that was
never stored in the cache returns `0`. -/
theorem c9_order_validation (M : MathModel) (g : St) (root n : Nat)
    (order : Int) :
    (order < 1 → backward M g root order =
      Except.error "Order must be >= 1") ∧
    (order < 1 → getHigherOrderGradient g n order =
      Except.error "Order must be >= 1") ∧
    (1 ≤ order → assocGet (g.get n).hog order = none →
      getHigherOrderGradient g n order = Except.ok 0) := by
  refine ⟨fun h => ?_, fun h => ?_, fun h1 h2 => ?_⟩
  · simp [backward, if_pos h]
  · simp [getHigherOrderGradient, if_pos h]
  · simp [getHigherOrderGradient, if_neg (not_lt.mpr h1), h2]

/-- C3 (counterexample).  `pow(Value(0), Value(1))` succeeds (zero base,
positive exponent) but the returned node's children list is empty — the
source returns `new Value(0, label)` — and not the claimed `[a, b]`. -/
theorem c3_pow_zero_children_counterexample :
    (pow Mstd gC3 0 1 "").map (fun p => (p.2.get p.1).children) =
      Except.ok [] ∧ ([] : List Nat) ≠ [0, 1] :=
  ⟨by rfl, by decide⟩

/-- C3 (amended).  Every operation builder records the returned node's
children as `[a]` (unary) or `[a, b]` in operand order — except the zero-base
positive-exponent case of `pow`, which returns a fresh leaf: data `0`, empty
children, default `'+'` tag and no gradient closure. -/
theorem c3_children_in_operand_order (M : MathModel) (g : St) (a b : Nat)
    (lab : String) :
    (((add g a b lab).2.get (add g a b lab).1).children = [a, b]) ∧
    (((sub g a b lab).2.get (sub g a b lab).1).children = [a, b]) ∧
    (((mul g a b lab).2.get (mul g a b lab).1).children = [a, b]) ∧
    (∀ p, div g a b lab = Except.ok p → ((p.2).get p.1).children = [a, b]) ∧
    (((negate g a lab).2.get (negate g a lab).1).children = [a]) ∧
    (∀ p, pow M g a b lab = Except.ok p → (g.get a).data ≠ 0 →
      ((p.2).get p.1).children = [a, b]) ∧
    (∀ p, pow M g a b lab = Except.ok p → (g.get a).data = 0 →
      ((p.2).get p.1).children = [] ∧ ((p.2).get p.1).data = 0 ∧
      ((p.2).get p.1).operation = "+" ∧ ((p.2).get p.1).rule = GradRule.leaf) ∧
    (((exp M g a lab).2.get (exp M g a lab).1).children = [a]) ∧
    (∀ p, log M g a lab = Except.ok p → ((p.2).get p.1).children = [a]) ∧
    (((tanh M g a lab).2.get (tanh M g a lab).1).children = [a]) ∧
    (((sigmoid M g a lab).2.get (sigmoid M g a lab).1).children = [a]) ∧
    (((relu g a lab).2.get (relu g a lab).1).children = [a]) := by
  refine ⟨?_, ?_, ?_, ?_, ?_, ?_, ?_, ?_, ?_, ?_, ?_, ?_⟩
  · simp [add, get_push_self]
  · simp [sub, get_push_self]
  · simp [mul, get_push_self]
  · intro p hp
    rw [div] at hp
    split at hp
    · cases hp
    · cases hp; simp [get_push_self]
  · simp [negate, get_push_self]
  · intro p hp ha
    rw [pow] at hp
    split at hp
    · exact absurd (by assumption) ha
    · split at hp
      · cases hp
      · cases hp; simp [get_push_self]
  · intro p hp ha
    rw [pow] at hp
    rw [if_pos ha] at hp
    split at hp
    · cases hp
    · split at hp
      · cases hp
      · cases hp; simp [get_push_self]
  · simp [exp, get_push_self]
  · intro p hp
    rw [log] at hp
    split at hp
    · cases hp
    · cases hp; simp [get_push_self]
  · simp [tanh, get_push_self]
  · simp [sigmoid, get_push_self]
  · simp [relu, get_push_self]

/-- Witness for C3 (amended), at concrete inputs: a binary `add`, a
successful `div`, and the zero-base `pow` leaf. -/
theorem c3_children_in_operand_order_witness :
    (((add gC3 0 1 "").2.get (add gC3 0 1 "").1).children = [0, 1]) ∧
    (((resSt ((div gW5 0 1 "").map Prod.snd)).get 2).children = [0, 1]) ∧
    (((resSt ((pow Mstd gC3 0 1 "").map Prod.snd)).get 2).children = []) :=
  ⟨(c3_children_in_operand_order Mstd gC3 0 1 "").1,
   (c3_children_in_operand_order Mstd gW5 0 1 "").2.2.2.1
     (2, resSt ((div gW5 0 1 "").map Prod.snd)) (by rfl),
   ((c3_children_in_operand_order Mstd gC3 0 1 "").2.2.2.2.2.2.1
     (2, resSt ((pow Mstd gC3 0 1 "").map Prod.snd)) (by rfl)
     (by decide)).1⟩

/-- C5.  `div(a, b)` fails with the near-zero domain error exactly when
`|b.data| < Number.EPSILON`; otherwise it returns a node whose data is
`a.data / b.data`, and firing that node's gradient closure adds `(1/b) · g`
to `a`'s gradient and `(-a/b²) · g` to `b`'s gradient. -/
theorem c5_div_near_zero_and_gradient (M : MathModel) (g : St) (n a b : Nat)
    (lab : String) :
    (|(g.get b).data| < EPS →
      div g a b lab = Except.error "Division by near-zero value") ∧
    (¬ |(g.get b).data| < EPS →
      div g a b lab = Except.ok (g.push
        { data := (g.get a).data / (g.get b).data, grad := 0, hog := []
        , label := lab, children := [a, b], operation := "div"
        , rule := GradRule.div a b })) ∧
    ((g.get n).rule = GradRule.div a b →
      runRule M g n =
        Except.ok
          (addGrad (addGrad g a ((1 / (g.get b).data) * (g.get n).grad)) b
            ((-((addGrad g a ((1 / (g.get b).data) * (g.get n).grad)).get
                  a).data /
                (((addGrad g a ((1 / (g.get b).data) * (g.get n).grad)).get
                      b).data *
                  ((addGrad g a ((1 / (g.get b).data) * (g.get n).grad)).get
                      b).data)) *
              ((addGrad g a ((1 / (g.get b).data) * (g.get n).grad)).get
                  n).grad))) := by
  refine ⟨fun h => ?_, fun h => ?_, fun hr => ?_⟩
  · rw [div, if_pos h]
  · rw [div, if_neg h]
  · simp only [runRule, hr]

/-- Witness for C5 at concrete inputs: division by a zero-data leaf fails,
`div(2, 4)` succeeds with data `1/2`, and firing the `div` closure of the
built node (with output gradient seeded to 1) yields gradients `1/4` and
`-2/16`. -/
theorem c5_div_near_zero_and_gradient_witness :
    div gC3 1 0 "" = Except.error "Division by near-zero value" ∧
    div gW5 0 1 "" = Except.ok (gW5.push
      { data := (gW5.get 0).data / (gW5.get 1).data, grad := 0, hog := []
      , label := "", children := [0, 1], operation := "div"
      , rule := GradRule.div 0 1 }) ∧
    gradAfter (backward Mstd (resSt ((div gW5 0 1 "").map Prod.snd)) 2 1) 0 =
      some (1 / 4) ∧
    gradAfter (backward Mstd (resSt ((div gW5 0 1 "").map Prod.snd)) 2 1) 1 =
      some (-2 / 16) :=
  ⟨(c5_div_near_zero_and_gradient Mstd gC3 0 1 0 "").1 (by decide),
   (c5_div_near_zero_and_gradient Mstd gW5 0 0 1 "").2.1 (by decide),
   by decide, by decide⟩

/-- Witness for C9 at concrete inputs: order `0` is rejected by both entry
points, and querying the never-computed order `3` on a fresh graph yields
`0`. -/
theorem c9_order_validation_witness :
    backward Mstd gC1 2 0 = Except.error "Order must be >= 1" ∧
    getHigherOrderGradient gC1 0 0 = Except.error "Order must be >= 1" ∧
    getHigherOrderGradient gC1 0 3 = Except.ok 0 :=
  ⟨(c9_order_validation Mstd gC1 2 0 0).1 (by decide),
   (c9_order_validation Mstd gC1 2 0 0).2.1 (by decide),
   (c9_order_validation Mstd gC1 2 0 3).2.2 (by decide) (by decide)⟩

/-- If the action never changes the children map, neither does any fold of
it. -/
theorem ch_foldl {σ : Type} {ch : σ → Nat → List Nat} {act : σ → Nat → σ}
    (Hch : ∀ s k n, ch (act s k) n = ch s n) :
    ∀ (L : List Nat) (s : σ) (n : Nat), ch (L.foldl act s) n = ch s n := by
  intro L
  induction L with
  | nil => intro s n; rfl
  | cons k L ih => intro s n; rw [List.foldl_cons, ih, Hch]

/-- One level of the visited-set walk satisfies the walk contract, given
that the descent `F` does at one unit less fuel. -/
theorem visitAux_spec {σ : Type} (ch : σ → Nat → List Nat) (act : σ → Nat → σ)
    (Hch : ∀ s k n, ch (act s k) n = ch s n) (f : Nat)
    (F : σ → List Nat → List Nat → σ × List Nat)
    (hF : ∀ s vis pending, (∀ n c, c ∈ ch s n → c < n) →
      (∀ m ∈ pending, m < f) → WalkOut ch act s vis pending (F s vis pending)) :
    ∀ (pending : List Nat) (s : σ) (vis : List Nat),
      (∀ n c, c ∈ ch s n → c < n) → (∀ m ∈ pending, m < f + 1) →
      WalkOut ch act s vis pending (visitAux ch act F s vis pending) := by
  intro pending
  induction pending with
  | nil =>
    intro s vis _ _
    exact ⟨[], by simp [visitAux], by simp [visitAux], List.nodup_nil,
      by simp, by simp, by simp, by simp⟩
  | cons n rest ih =>
    intro s vis HB Hf
    by_cases hn : n ∈ vis
    · obtain ⟨news, h1, h2, h3, h4, h5, h6, h7⟩ :=
        ih s vis HB (fun m hm => Hf m (List.mem_cons_of_mem n hm))
      refine ⟨news, ?_, ?_, h3, h4, ?_, ?_, h7⟩
      · simpa [visitAux, hn] using h1
      · simpa [visitAux, hn] using h2
      · intro m hm
        rcases List.mem_cons.mp hm with h | h
        · subst h; simp [hn]
        · exact h5 m h
      · intro m hm
        obtain ⟨p, hp, hr⟩ := h6 m hm
        exact ⟨p, List.mem_cons_of_mem n hp, hr⟩
    · -- first visit of `n`: act, descend into its children, then the rest
      have hch1 : ∀ x, ch (act s n) x = ch s x := fun x => Hch s n x
      have HB1 : ∀ x c, c ∈ ch (act s n) x → c < x := by
        intro x c hc; exact HB x c (hch1 x ▸ hc)
      have Hf1 : ∀ m ∈ ch (act s n) n, m < f := by
        intro m hm
        have hmn : m < n := HB n m (hch1 n ▸ hm)
        have : n < f + 1 := Hf n (List.mem_cons_self n rest)
        omega
      obtain ⟨news1, g1, g2, g3, g4, g5, g6, g7⟩ :=
        hF (act s n) (n :: vis) (ch (act s n) n) HB1 Hf1
      set p := F (act s n) (n :: vis) (ch (act s n) n) with hp
      have hchp : ∀ x, ch p.1 x = ch s x := by
        intro x
        rw [g2, ch_foldl Hch, hch1]
      have HBp : ∀ x c, c ∈ ch p.1 x → c < x := by
        intro x c hc; exact HB x c (hchp x ▸ hc)
      obtain ⟨news2, k1, k2, k3, k4, k5, k6, k7⟩ :=
        ih p.1 p.2 HBp (fun m hm => Hf m (List.mem_cons_of_mem n hm))
      refine ⟨news2 ++ news1 ++ [n], ?_, ?_, ?_, ?_, ?_, ?_, ?_⟩
      · -- visited set
        show (visitAux ch act F s vis (n :: rest)).2 = _
        simp only [visitAux, if_neg hn]
        rw [k1, g1]
        simp
      · -- context is the fold over the marking order
        show (visitAux ch act F s vis (n :: rest)).1 = _
        simp only [visitAux, if_neg hn]
        rw [k2, g2]
        simp [List.foldl_append]
      · -- no duplicates
        have hn1 : n ∉ news1 := fun h => g4 n h (List.mem_cons_self n vis)
        have hn2 : n ∉ news2 := fun h => k4 n h (by rw [g1]; simp)
        have hdisj : ∀ m ∈ news2, m ∉ news1 := fun m hm hm1 =>
          k4 m hm (by rw [g1]; simp [hm1])
        have nd1 : (news1 ++ [n]).Nodup := by
          refine List.Nodup.append g3 (by simp) ?_
          intro a ha han
          simp at han
          subst han
          exact hn1 ha
        have nd2 : (news2 ++ (news1 ++ [n])).Nodup := by
          refine List.Nodup.append k3 nd1 ?_
          intro a ha ha2
          rcases List.mem_append.mp ha2 with h | h
          · exact hdisj a ha h
          · simp at h
            subst h
            exact hn2 ha
        simpa [List.append_assoc] using nd2
      · -- freshness
        intro m hm
        simp only [List.mem_append] at hm
        rcases hm with (hm | hm) | hm
        · intro hv
          exact k4 m hm (by rw [g1]; simp [hv])
        · intro hv
          exact g4 m hm (List.mem_cons_of_mem n hv)
        · simp at hm
          subst hm
          exact hn
      · -- worklist coverage
        intro m hm
        rcases List.mem_cons.mp hm with h | h
        · subst h; simp
        · have := k5 m h
          rw [g1] at this
          simp only [List.mem_append, List.mem_cons] at this ⊢
          tauto
      · -- every new node is reachable from the worklist
        intro m hm
        simp only [List.mem_append] at hm
        rcases hm with (hm | hm) | hm
        · obtain ⟨q, hq, hr⟩ := k6 m hm
          exact ⟨q, List.mem_cons_of_mem n hq, reach_congr hchp hr⟩
        · obtain ⟨c, hc, hr⟩ := g6 m hm
          refine ⟨n, List.mem_cons_self n rest, ?_⟩
          exact Reach.head (hch1 n ▸ hc) (reach_congr hch1 hr)
        · simp at hm
          subst hm
          exact ⟨m, List.mem_cons_self m rest, Reach.refl m⟩
      · -- closure under children
        intro m hm c hc
        simp only [List.mem_append] at hm
        rcases hm with (hm | hm) | hm
        · have := k7 m hm c ((hchp m).symm ▸ hc)
          rw [g1] at this
          simp only [List.mem_append, List.mem_cons] at this ⊢
          tauto
        · have := g7 m hm c ((hch1 m).symm ▸ hc)
          simp only [List.mem_append, List.mem_cons] at this ⊢
          tauto
        · simp at hm
          subst hm
          have := g5 c ((hch1 m).symm ▸ hc)
          simp only [List.mem_append, List.mem_cons] at this ⊢
          tauto

/-- The fuelled walk satisfies the walk contract whenever the fuel exceeds
every worklist id (which, under the decreasing-edge invariant, bounds the
depth of the walk). -/
theorem visitL_spec {σ : Type} (ch : σ → Nat → List Nat) (act : σ → Nat → σ)
    (Hch : ∀ s k n, ch (act s k) n = ch s n) :
    ∀ (fuel : Nat) (s : σ) (vis pending : List Nat),
      (∀ n c, c ∈ ch s n → c < n) → (∀ m ∈ pending, m < fuel) →
      WalkOut ch act s vis pending (visitL ch act fuel s vis pending) := by
  intro fuel
  induction fuel with
  | zero =>
    intro s vis pending _ Hf
    refine ⟨[], by simp [visitL], by simp [visitL], List.nodup_nil, by simp,
      ?_, by simp, by simp⟩
    intro m hm
    exact absurd (Hf m hm) (Nat.not_lt_zero m)
  | succ f ih =>
    intro s vis pending HB Hf
    exact visitAux_spec ch act Hch f (visitL ch act f)
      (fun s' vis' pending' hb hf => ih s' vis' pending' hb hf)
      pending s vis HB Hf

/-- A full walk from a single root with an empty visited set: the visited
output is exactly the set of nodes reachable from the root, and the final
context is the fold of the action over it in marking order. -/
theorem visit_run_spec {σ : Type} (ch : σ → Nat → List Nat)
    (act : σ → Nat → σ) (Hch : ∀ s k n, ch (act s k) n = ch s n) (s : σ)
    (root fuel : Nat) (HB : ∀ n c, c ∈ ch s n → c < n) (hf : root < fuel) :
    ∃ news : List Nat,
      (visitL ch act fuel s [] [root]).2 = news ∧
      (visitL ch act fuel s [] [root]).1 = news.reverse.foldl act s ∧
      news.Nodup ∧
      (∀ m, m ∈ news ↔ Reach (ch s) root m) := by
  obtain ⟨news, h1, h2, h3, _, h5, h6, h7⟩ :=
    visitL_spec ch act Hch fuel s [] [root] HB (by simpa using hf)
  refine ⟨news, by simpa using h1, h2, h3, ?_⟩
  have hroot : root ∈ news := by simpa using h5 root (by simp)
  have hcl : ∀ m ∈ news, ∀ c ∈ ch s m, c ∈ news := by
    intro m hm c hc
    simpa using h7 m hm c hc
  intro m
  constructor
  · intro hm
    obtain ⟨p, hp, hr⟩ := h6 m hm
    simp at hp
    subst hp
    exact hr
  · intro hr
    exact reach_closed hcl hr hroot

/-- A fold of per-node in-place updates over a duplicate-free list of
in-range ids applies the update to exactly the listed nodes. -/
theorem foldl_pointwise (act : St → Nat → St) (f : Node → Node)
    (hact : ∀ g n, act g n = updN g n f) :
    ∀ (L : List Nat) (s : St) (m : Nat), L.Nodup →
      (∀ k ∈ L, k < s.nodes.length) →
      (L.foldl act s).get m = if m ∈ L then f (s.get m) else s.get m := by
  intro L
  induction L with
  | nil => intro s m _ _; simp
  | cons k L ih =>
    intro s m hnd hrange
    have hk : k < s.nodes.length := hrange k (List.mem_cons_self k L)
    have hlen : (act s k).nodes.length = s.nodes.length := by
      rw [hact]; exact updN_length s k f
    rw [List.foldl_cons,
      ih (act s k) m (List.nodup_cons.mp hnd).2
        (fun x hx => hlen ▸ hrange x (List.mem_cons_of_mem k hx))]
    by_cases hm : m = k
    · subst hm
      have hmL : m ∉ L := (List.nodup_cons.mp hnd).1
      simp [hmL, hact, get_updN, hk]
    · have hne : (act s k).get m = s.get m := by
        rw [hact, get_updN]; simp [hm]
      rw [hne]
      by_cases hmL : m ∈ L <;> simp [hmL, hm]

/-- The reset action never changes any children list. -/
theorem chSt_zeroAct : ∀ (s : St) (k n : Nat), chSt (zeroAct s k) n = chSt s n := by
  intro s k n
  simp only [chSt, zeroAct, get_updN]
  split
  · rename_i h
    rw [h.2]
  · rfl

/-- After `resetGrad()` on a node, every node reachable from it through
`children` has gradient `0` and an empty higher-order gradient cache. -/
theorem resetGrad_reach_zero (g : St) (root : Nat) (hA : Acyc g)
    (hroot : root < g.nodes.length) :
    ∀ m, Reach (chSt g) root m →
      ((resetGrad g root).get m).grad = 0 ∧
      ((resetGrad g root).get m).hog = [] := by
  obtain ⟨news, h1, h2, h3, h4⟩ :=
    visit_run_spec chSt zeroAct chSt_zeroAct g root (g.nodes.length + 1)
      (acyc_all hA) (by omega)
  intro m hm
  have hmem : m ∈ news := (h4 m).mpr hm
  have hrange : ∀ k ∈ news.reverse, k < g.nodes.length := by
    intro k hk
    rw [List.mem_reverse] at hk
    have := reach_le (acyc_all hA) ((h4 k).mp hk)
    omega
  have hfold := foldl_pointwise zeroAct
    (fun nd => { nd with grad := 0, hog := [] }) (fun _ _ => rfl)
    news.reverse g m (List.nodup_reverse.mpr h3) hrange
  have : (resetGrad g root).get m = { g.get m with grad := 0, hog := [] } := by
    simp only [resetGrad]
    rw [h2, hfold, if_pos (List.mem_reverse.mpr hmem)]
  rw [this]
  exact ⟨rfl, rfl⟩

/-- The clipping action never changes any children list. -/
theorem chSt_clipAct (m : ℚ) :
    ∀ (s : St) (k n : Nat), chSt (clipAct m s k) n = chSt s n := by
  intro s k n
  simp only [chSt, clipAct, get_updN]
  split
  · rename_i h
    rw [h.2]
    split <;> rfl
  · rfl

/-- C7 (counterexample).  `clipGradients(-1)` on a leaf whose gradient is `5`
rescales the gradient to `-1` (sign flipped), so the reachable node ends with
`|grad| = 1 > maxNorm`: the claim fails for a negative bound. -/
theorem c7_negative_maxnorm_counterexample :
    Reach (chSt gW7) 0 0 ∧
    ((clipGradients gW7 (-1) 0).get 0).grad = -1 ∧
    ¬ |((clipGradients gW7 (-1) 0).get 0).grad| ≤ (-1 : ℚ) :=
  ⟨Reach.refl 0, by decide, by decide⟩

/-- C7 (amended).  For a nonnegative `maxNorm = m`, after `clipGradients(m)`
no reachable node has `|grad| > m`: every reachable node whose `|grad|`
exceeded `m` is rescaled by the factor `m / |grad|` to magnitude exactly `m`
with its sign preserved, and every reachable node already within the bound is
unchanged. -/
theorem c7_clip_gradients_bound (g : St) (m : ℚ) (root : Nat) (hA : Acyc g)
    (hroot : root < g.nodes.length) (hm : 0 ≤ m) :
    ∀ k, Reach (chSt g) root k →
      |((clipGradients g m root).get k).grad| ≤ m ∧
      (|(g.get k).grad| ≤ m → (clipGradients g m root).get k = g.get k) ∧
      (m < |(g.get k).grad| →
        ((clipGradients g m root).get k).grad =
          (g.get k).grad * (m / |(g.get k).grad|) ∧
        |((clipGradients g m root).get k).grad| = m ∧
        0 ≤ ((clipGradients g m root).get k).grad * (g.get k).grad) := by
  obtain ⟨news, h1, h2, h3, h4⟩ :=
    visit_run_spec chSt (clipAct m) (chSt_clipAct m) g root
      (g.nodes.length + 1) (acyc_all hA) (by omega)
  intro k hk
  have hmem : k ∈ news := (h4 k).mpr hk
  have hrange : ∀ x ∈ news.reverse, x < g.nodes.length := by
    intro x hx
    rw [List.mem_reverse] at hx
    have := reach_le (acyc_all hA) ((h4 x).mp hx)
    omega
  have hfold := foldl_pointwise (clipAct m)
    (fun nd => if m < |nd.grad| then
        { nd with grad := nd.grad * (m / |nd.grad|) } else nd)
    (fun _ _ => rfl) news.reverse g k (List.nodup_reverse.mpr h3) hrange
  have hget : (clipGradients g m root).get k =
      if m < |(g.get k).grad| then
        { g.get k with grad := (g.get k).grad * (m / |(g.get k).grad|) }
      else g.get k := by
    simp only [clipGradients]
    rw [h2, hfold, if_pos (List.mem_reverse.mpr hmem)]
  by_cases hcmp : m < |(g.get k).grad|
  · rw [hget, if_pos hcmp]
    have hgr : (0 : ℚ) < |(g.get k).grad| := lt_of_le_of_lt hm hcmp
    have hne : |(g.get k).grad| ≠ 0 := ne_of_gt hgr
    have hdiv : (0 : ℚ) ≤ m / |(g.get k).grad| :=
      div_nonneg hm (abs_nonneg _)
    have habs : |(g.get k).grad * (m / |(g.get k).grad|)| = m := by
      rw [abs_mul, abs_of_nonneg hdiv, mul_comm, div_mul_cancel₀ m hne]
    refine ⟨le_of_eq habs, fun hle => absurd hcmp (not_lt.mpr hle),
      fun _ => ⟨rfl, habs, ?_⟩⟩
    have hswap : (g.get k).grad * (m / |(g.get k).grad|) * (g.get k).grad =
        (g.get k).grad * (g.get k).grad * (m / |(g.get k).grad|) := by ring
    rw [hswap]
    exact mul_nonneg (mul_self_nonneg _) hdiv
  · rw [hget, if_neg hcmp]
    exact ⟨not_lt.mp hcmp, fun _ => rfl,
      fun hlt => absurd hlt hcmp⟩

/-- Witness for C7 (amended): clipping the diamond graph after `backward()`
with `maxNorm = 5` bounds the leaf's gradient (formerly 12) by 5 and leaves
the in-bound node 1 (gradient 3) unchanged. -/
theorem c7_clip_gradients_bound_witness :
    |((clipGradients gB1 5 2).get 0).grad| ≤ 5 ∧
    (clipGradients gB1 5 2).get 1 = gB1.get 1 :=
  ⟨(c7_clip_gradients_bound gB1 5 2 (by decide) (by decide) (by decide) 0
      (Reach.head (by decide) (Reach.refl 0))).1,
   (c7_clip_gradients_bound gB1 5 2 (by decide) (by decide) (by decide) 1
      (Reach.head (by decide) (Reach.refl 1))).2.1 (by decide)⟩

/-- Folding a value into the running maximum bounds it. -/
theorem obnd_omax (o : Option ℚ) (q : ℚ) : obnd (omax o q) q := by
  cases o with
  | none => exact ⟨q, rfl, le_refl q⟩
  | some a => exact ⟨max a q, rfl, le_max_right a q⟩

/-- Folding a value into the running minimum bounds it. -/
theorem obnd_omin (o : Option ℚ) (q : ℚ) : obnd' (omin o q) q := by
  cases o with
  | none => exact ⟨q, rfl, le_refl q⟩
  | some a => exact ⟨min a q, rfl, min_le_right a q⟩

/-- The running maximum only grows. -/
theorem omax_mono {o : Option ℚ} {a : ℚ} (h : o = some a) (q : ℚ) :
    ∃ c, omax o q = some c ∧ a ≤ c := by
  subst h
  exact ⟨max a q, rfl, le_max_left a q⟩

/-- The running minimum only shrinks. -/
theorem omin_mono {o : Option ℚ} {a : ℚ} (h : o = some a) (q : ℚ) :
    ∃ c, omin o q = some c ∧ c ≤ a := by
  subst h
  exact ⟨min a q, rfl, min_le_left a q⟩

/-- The running maximum is either unchanged or set to the new value. -/
theorem omax_cases (o : Option ℚ) (q : ℚ) : omax o q = o ∨ omax o q = some q := by
  cases o with
  | none => exact Or.inr rfl
  | some a =>
    rcases le_total q a with h | h
    · exact Or.inl (by simp [omax, max_eq_left h])
    · exact Or.inr (by simp [omax, max_eq_right h])

/-- The running minimum is either unchanged or set to the new value. -/
theorem omin_cases (o : Option ℚ) (q : ℚ) : omin o q = o ∨ omin o q = some q := by
  cases o with
  | none => exact Or.inr rfl
  | some a =>
    rcases le_total a q with h | h
    · exact Or.inl (by simp [omin, min_eq_left h])
    · exact Or.inr (by simp [omin, min_eq_right h])

/-- Bounds transport downward along `≤`. -/
theorem obnd_trans {o : Option ℚ} {a b : ℚ} (h : obnd o a) (hb : b ≤ a) :
    obnd o b := by
  obtain ⟨c, hc, hac⟩ := h
  exact ⟨c, hc, le_trans hb hac⟩

/-- Bounds transport upward along `≤`. -/
theorem obnd'_trans {o : Option ℚ} {a b : ℚ} (h : obnd' o a) (hb : a ≤ b) :
    obnd' o b := by
  obtain ⟨c, hc, hac⟩ := h
  exact ⟨c, hc, le_trans hac hb⟩

/-- What folding the health action over a node list computes: the `St`
component is untouched; the extremum accumulators bound every nonzero
absolute gradient in the list, are attained by one of them unless untouched,
and only tighten. -/
theorem health_foldl (g : St) :
    ∀ (L : List Nat) (mx mn : Option ℚ),
      (L.foldl healthAct (g, mx, mn)).1 = g ∧
      (∀ k ∈ L, (g.get k).grad ≠ 0 →
        obnd (L.foldl healthAct (g, mx, mn)).2.1 |(g.get k).grad| ∧
        obnd' (L.foldl healthAct (g, mx, mn)).2.2 |(g.get k).grad|) ∧
      ((L.foldl healthAct (g, mx, mn)).2.1 = mx ∨
        ∃ k ∈ L, (g.get k).grad ≠ 0 ∧
          (L.foldl healthAct (g, mx, mn)).2.1 = some |(g.get k).grad|) ∧
      ((L.foldl healthAct (g, mx, mn)).2.2 = mn ∨
        ∃ k ∈ L, (g.get k).grad ≠ 0 ∧
          (L.foldl healthAct (g, mx, mn)).2.2 = some |(g.get k).grad|) ∧
      (∀ a, mx = some a → obnd (L.foldl healthAct (g, mx, mn)).2.1 a) ∧
      (∀ a, mn = some a → obnd' (L.foldl healthAct (g, mx, mn)).2.2 a) := by
  intro L
  induction L with
  | nil =>
    intro mx mn
    refine ⟨rfl, by simp, Or.inl rfl, Or.inl rfl, ?_, ?_⟩
    · intro a h
      exact ⟨a, h, le_refl a⟩
    · intro a h
      exact ⟨a, h, le_refl a⟩
  | cons k L ih =>
    intro mx mn
    by_cases hk : (g.get k).grad = 0
    · have hstep : healthAct (g, mx, mn) k = (g, mx, mn) := by
        simp [healthAct, hk]
      rw [List.foldl_cons, hstep]
      obtain ⟨i1, i2, i3, i4, i5, i6⟩ := ih mx mn
      refine ⟨i1, ?_, ?_, ?_, i5, i6⟩
      · intro x hx hgx
        rcases List.mem_cons.mp hx with h | h
        · subst h; exact absurd hk hgx
        · exact i2 x h hgx
      · rcases i3 with h | ⟨x, hx, hgx, he⟩
        · exact Or.inl h
        · exact Or.inr ⟨x, List.mem_cons_of_mem k hx, hgx, he⟩
      · rcases i4 with h | ⟨x, hx, hgx, he⟩
        · exact Or.inl h
        · exact Or.inr ⟨x, List.mem_cons_of_mem k hx, hgx, he⟩
    · have hstep : healthAct (g, mx, mn) k =
          (g, omax mx |(g.get k).grad|, omin mn |(g.get k).grad|) := by
        simp [healthAct, hk]
      rw [List.foldl_cons, hstep]
      obtain ⟨i1, i2, i3, i4, i5, i6⟩ :=
        ih (omax mx |(g.get k).grad|) (omin mn |(g.get k).grad|)
      refine ⟨i1, ?_, ?_, ?_, ?_, ?_⟩
      · intro x hx hgx
        rcases List.mem_cons.mp hx with h | h
        · subst h
          obtain ⟨c, hc, hqc⟩ := obnd_omax mx |(g.get x).grad|
          obtain ⟨c', hc', hqc'⟩ := obnd_omin mn |(g.get x).grad|
          exact ⟨obnd_trans (i5 c hc) hqc, obnd'_trans (i6 c' hc') hqc'⟩
        · exact i2 x h hgx
      · rcases i3 with h | ⟨x, hx, hgx, he⟩
        · rcases omax_cases mx |(g.get k).grad| with h2 | h2
          · exact Or.inl (h.trans h2)
          · exact Or.inr ⟨k, List.mem_cons_self k L, hk, h.trans h2⟩
        · exact Or.inr ⟨x, List.mem_cons_of_mem k hx, hgx, he⟩
      · rcases i4 with h | ⟨x, hx, hgx, he⟩
        · rcases omin_cases mn |(g.get k).grad| with h2 | h2
          · exact Or.inl (h.trans h2)
          · exact Or.inr ⟨k, List.mem_cons_self k L, hk, h.trans h2⟩
        · exact Or.inr ⟨x, List.mem_cons_of_mem k hx, hgx, he⟩
      · intro a ha
        obtain ⟨c, hc, hac⟩ := omax_mono ha |(g.get k).grad|
        exact obnd_trans (i5 c hc) hac
      · intro a ha
        obtain ⟨c, hc, hca⟩ := omin_mono ha |(g.get k).grad|
        exact obnd'_trans (i6 c hc) hca

/-- The health action never changes any children list (its `St` component is
read-only). -/
theorem chPair_healthAct :
    ∀ (p : St × Option ℚ × Option ℚ) (k n : Nat),
      chPair (healthAct p k) n = chPair p n := by
  intro p k n
  simp only [chPair, healthAct]
  split <;> rfl

/-- C8.  `checkGradientHealth()` walks the reachable subtree once (dedup by
id) and considers only nodes with nonzero gradient: `maxGrad`/`minGrad`
bound every reachable nonzero `|grad|` and are attained by one; when no
reachable node has a nonzero gradient they stay at the initial `-Infinity` /
`+Infinity` (modelled `none`); `hasExploding` holds iff `maxGrad > 1e3` and
`hasVanishing` iff `minGrad < 1e-3`. -/
theorem c8_gradient_health (g : St) (root : Nat) (hA : Acyc g)
    (hroot : root < g.nodes.length) :
    (∀ k, Reach (chSt g) root k → (g.get k).grad ≠ 0 →
      obnd (checkGradientHealth g root).maxGrad |(g.get k).grad| ∧
      obnd' (checkGradientHealth g root).minGrad |(g.get k).grad|) ∧
    (∀ q, (checkGradientHealth g root).maxGrad = some q →
      ∃ k, Reach (chSt g) root k ∧ (g.get k).grad ≠ 0 ∧
        |(g.get k).grad| = q) ∧
    (∀ q, (checkGradientHealth g root).minGrad = some q →
      ∃ k, Reach (chSt g) root k ∧ (g.get k).grad ≠ 0 ∧
        |(g.get k).grad| = q) ∧
    ((checkGradientHealth g root).maxGrad = none ↔
      ∀ k, Reach (chSt g) root k → (g.get k).grad = 0) ∧
    ((checkGradientHealth g root).minGrad = none ↔
      ∀ k, Reach (chSt g) root k → (g.get k).grad = 0) ∧
    ((checkGradientHealth g root).hasExploding = true ↔
      ∃ q, (checkGradientHealth g root).maxGrad = some q ∧ 1000 < q) ∧
    ((checkGradientHealth g root).hasVanishing = true ↔
      ∃ q, (checkGradientHealth g root).minGrad = some q ∧ q < 1 / 1000) := by
  have HB : ∀ n c, c ∈ chPair (g, none, none) n → c < n :=
    fun n c hc => acyc_all hA n c hc
  obtain ⟨news, h1, h2, h3, h4⟩ :=
    visit_run_spec chPair healthAct chPair_healthAct (g, none, none) root
      (g.nodes.length + 1) HB (by omega)
  have hmr : ∀ m, m ∈ news.reverse ↔ Reach (chSt g) root m := by
    intro m
    rw [List.mem_reverse, h4]
    exact ⟨reach_congr (fun _ => rfl), reach_congr (fun _ => rfl)⟩
  obtain ⟨f1, f2, f3, f4, f5, f6⟩ := health_foldl g news.reverse none none
  have hmax : (checkGradientHealth g root).maxGrad =
      (news.reverse.foldl healthAct (g, none, none)).2.1 := by
    show (visitL chPair healthAct (g.nodes.length + 1)
      (g, none, none) [] [root]).1.2.1 = _
    rw [h2]
  have hmin : (checkGradientHealth g root).minGrad =
      (news.reverse.foldl healthAct (g, none, none)).2.2 := by
    show (visitL chPair healthAct (g.nodes.length + 1)
      (g, none, none) [] [root]).1.2.2 = _
    rw [h2]
  have hbnd : ∀ k, Reach (chSt g) root k → (g.get k).grad ≠ 0 →
      obnd (checkGradientHealth g root).maxGrad |(g.get k).grad| ∧
      obnd' (checkGradientHealth g root).minGrad |(g.get k).grad| := by
    intro k hk hgk
    rw [hmax, hmin]
    exact f2 k ((hmr k).mpr hk) hgk
  have hattmax : ∀ q, (checkGradientHealth g root).maxGrad = some q →
      ∃ k, Reach (chSt g) root k ∧ (g.get k).grad ≠ 0 ∧
        |(g.get k).grad| = q := by
    intro q hq
    rw [hmax] at hq
    rcases f3 with h | ⟨k, hkL, hgk, he⟩
    · rw [h] at hq; cases hq
    · rw [he] at hq
      exact ⟨k, (hmr k).mp hkL, hgk, Option.some_inj.mp hq⟩
  have hattmin : ∀ q, (checkGradientHealth g root).minGrad = some q →
      ∃ k, Reach (chSt g) root k ∧ (g.get k).grad ≠ 0 ∧
        |(g.get k).grad| = q := by
    intro q hq
    rw [hmin] at hq
    rcases f4 with h | ⟨k, hkL, hgk, he⟩
    · rw [h] at hq; cases hq
    · rw [he] at hq
      exact ⟨k, (hmr k).mp hkL, hgk, Option.some_inj.mp hq⟩
  refine ⟨hbnd, hattmax, hattmin, ?_, ?_, ?_, ?_⟩
  · constructor
    · intro h0 k hk
      by_contra hgk
      obtain ⟨⟨a, ha, _⟩, _⟩ := hbnd k hk hgk
      rw [h0] at ha
      cases ha
    · intro hall
      rcases hq : (checkGradientHealth g root).maxGrad with _ | q
      · rfl
      · obtain ⟨k, hk, hgk, _⟩ := hattmax q hq
        exact absurd (hall k hk) hgk
  · constructor
    · intro h0 k hk
      by_contra hgk
      obtain ⟨_, ⟨a, ha, _⟩⟩ := hbnd k hk hgk
      rw [h0] at ha
      cases ha
    · intro hall
      rcases hq : (checkGradientHealth g root).minGrad with _ | q
      · rfl
      · obtain ⟨k, hk, hgk, _⟩ := hattmin q hq
        exact absurd (hall k hk) hgk
  · have hexp : (checkGradientHealth g root).hasExploding =
        (match (checkGradientHealth g root).maxGrad with
          | none => false
          | some q => decide (1000 < q)) := rfl
    rw [hexp]
    rcases hq : (checkGradientHealth g root).maxGrad with _ | q
    · simp
    · simp
  · have hvan : (checkGradientHealth g root).hasVanishing =
        (match (checkGradientHealth g root).minGrad with
          | none => false
          | some q => decide (q < 1 / 1000)) := rfl
    rw [hvan]
    rcases hq : (checkGradientHealth g root).minGrad with _ | q
    · simp
    · simp

/-- Witness for C8: the diamond graph after `backward()` has gradients 12,
3, 1; its health report's extrema bound the leaf's `|grad| = 12`. -/
theorem c8_gradient_health_witness :
    obnd (checkGradientHealth gB1 2).maxGrad |(gB1.get 0).grad| ∧
    obnd' (checkGradientHealth gB1 2).minGrad |(gB1.get 0).grad| :=
  (c8_gradient_health gB1 2 (by decide) (by decide)).1 0
    (Reach.head (by decide) (Reach.refl 0)) (by decide)

/-- Structural preservation is reflexive. -/
theorem presStruct_refl (g : St) : presStruct g g :=
  ⟨rfl, fun _ => ⟨rfl, rfl, rfl, rfl, rfl⟩⟩

/-- Structural preservation composes. -/
theorem presStruct_trans {g1 g2 g3 : St} (h1 : presStruct g1 g2)
    (h2 : presStruct g2 g3) : presStruct g1 g3 := by
  obtain ⟨hl1, hf1⟩ := h1
  obtain ⟨hl2, hf2⟩ := h2
  refine ⟨hl2.trans hl1, fun m => ?_⟩
  obtain ⟨a1, b1, c1, d1, e1⟩ := hf1 m
  obtain ⟨a2, b2, c2, d2, e2⟩ := hf2 m
  exact ⟨a2.trans a1, b2.trans b1, c2.trans c1, d2.trans d1, e2.trans e1⟩

/-- Cache preservation is reflexive and composes. -/
theorem presHog_refl (g : St) : presHog g g := fun _ => rfl

/-- Cache preservation composes. -/
theorem presHog_trans {g1 g2 g3 : St} (h1 : presHog g1 g2)
    (h2 : presHog g2 g3) : presHog g1 g3 :=
  fun m => (h2 m).trans (h1 m)

/-- An in-place update that keeps the structural fields preserves the
structure of the whole arena. -/
theorem presStruct_updN (g : St) (n : Nat) (f : Node → Node)
    (hf : ∀ nd, (f nd).data = nd.data ∧ (f nd).children = nd.children ∧
      (f nd).operation = nd.operation ∧ (f nd).label = nd.label ∧
      (f nd).rule = nd.rule) : presStruct g (updN g n f) := by
  refine ⟨updN_length g n f, fun m => ?_⟩
  rw [get_updN]
  split
  · rename_i h
    rw [h.2]
    exact hf (g.get n)
  · exact ⟨rfl, rfl, rfl, rfl, rfl⟩

/-- An in-place update that keeps the cache field preserves every cache. -/
theorem presHog_updN (g : St) (n : Nat) (f : Node → Node)
    (hf : ∀ nd, (f nd).hog = nd.hog) : presHog g (updN g n f) := by
  intro m
  rw [get_updN]
  split
  · rename_i h
    rw [h.2]
    exact hf (g.get n)
  · rfl

/-- The `grad` setter touches neither structure nor caches. -/
theorem setGrad_pres (g : St) (n : Nat) (q : ℚ) :
    presStruct g (setGrad g n q) ∧ presHog g (setGrad g n q) :=
  ⟨presStruct_updN g n _ (fun _ => ⟨rfl, rfl, rfl, rfl, rfl⟩),
   presHog_updN g n _ (fun _ => rfl)⟩

/-- A gradient accumulation touches neither structure nor caches. -/
theorem addGrad_pres (g : St) (n : Nat) (q : ℚ) :
    presStruct g (addGrad g n q) ∧ presHog g (addGrad g n q) :=
  ⟨presStruct_updN g n _ (fun _ => ⟨rfl, rfl, rfl, rfl, rfl⟩),
   presHog_updN g n _ (fun _ => rfl)⟩

/-- A cache store preserves the structural fields. -/
theorem setHogN_presStruct (g : St) (n : Nat) (k : Int) (v : ℚ) :
    presStruct g (setHogN g n k v) :=
  presStruct_updN g n _ (fun _ => ⟨rfl, rfl, rfl, rfl, rfl⟩)

/-- Firing one gradient closure only accumulates gradients: structure and
caches are preserved. -/
theorem runRule_pres (M : MathModel) (g : St) (n : Nat) {g' : St}
    (h : runRule M g n = Except.ok g') :
    presStruct g g' ∧ presHog g g' := by
  rw [runRule] at h
  split at h
  all_goals try (split at h)
  all_goals try (split at h)
  all_goals cases h
  all_goals first
    | exact ⟨presStruct_refl _, presHog_refl _⟩
    | exact ⟨(addGrad_pres g _ _).1, (addGrad_pres g _ _).2⟩
    | exact ⟨presStruct_trans (addGrad_pres g _ _).1 (addGrad_pres _ _ _).1,
             presHog_trans (addGrad_pres g _ _).2 (addGrad_pres _ _ _).2⟩

/-- The higher-order loop preserves structure, provided the nested backward
engine it is given does. -/
theorem hoLoopAux_pres (bw : Nat → St → Nat → Except String St)
    (hbw : ∀ j g n g', bw j g n = Except.ok g' → presStruct g g')
    (o n : Nat) :
    ∀ (cnt : Nat) (g g' : St), hoLoopAux bw o n cnt g = Except.ok g' →
      presStruct g g' := by
  intro cnt
  induction cnt with
  | zero =>
    intro g g' h
    cases h
    exact presStruct_refl _
  | succ cnt ih =>
    intro g g' h
    rw [hoLoopAux] at h
    split at h
    · cases h
    · rename_i g1 hb
      exact presStruct_trans
        (presStruct_trans (hbw _ g n g1 hb) (setHogN_presStruct g1 n _ _))
        (ih _ g' h)

/-- The stack loop preserves structure, and for order ≤ 1 also every cache,
provided the nested backward engine preserves structure. -/
theorem stkAux_pres (M : MathModel) (bw : Nat → St → Nat → Except String St)
    (hbw : ∀ j g n g', bw j g n = Except.ok g' → presStruct g g')
    (o : Nat) :
    ∀ (L : List Nat) (g g' : St), stkAux M bw o L g = Except.ok g' →
      presStruct g g' ∧ (o ≤ 1 → presHog g g') := by
  intro L
  induction L with
  | nil =>
    intro g g' h
    cases h
    exact ⟨presStruct_refl _, fun _ => presHog_refl _⟩
  | cons n rest ih =>
    intro g g' h
    rw [stkAux] at h
    split at h
    · cases h
    · rename_i g1 hr
      by_cases ho : 1 < o
      · rw [if_pos ho] at h
        split at h
        · cases h
        · rename_i g2 hl
          obtain ⟨hs, _⟩ := ih g2 g' h
          refine ⟨?_, fun h1 => absurd ho (not_lt.mpr h1)⟩
          exact presStruct_trans (runRule_pres M g n hr).1
            (presStruct_trans (setHogN_presStruct g1 n 1 (gradOf g1 n))
              (presStruct_trans (hoLoopAux_pres bw hbw o n _ _ g2 hl) hs))
      · rw [if_neg ho] at h
        obtain ⟨hs, hh⟩ := ih g1 g' h
        exact ⟨presStruct_trans (runRule_pres M g n hr).1 hs,
          fun h1 => presHog_trans (runRule_pres M g n hr).2 (hh h1)⟩

/-- The fuelled backward engine preserves structure, and for order ≤ 1 also
every cache. -/
theorem bwFuel_pres (M : MathModel) :
    ∀ (f o : Nat) (g : St) (root : Nat) (g' : St),
      bwFuel M f o g root = Except.ok g' →
      presStruct g g' ∧ (o ≤ 1 → presHog g g') := by
  intro f
  induction f with
  | zero =>
    intro o g root g' h
    cases h
    exact ⟨presStruct_refl _, fun _ => presHog_refl _⟩
  | succ f ih =>
    intro o g root g' h
    rw [bwFuel] at h
    obtain ⟨hs, hh⟩ := stkAux_pres M (bwFuel M f)
      (fun j gg nn gg' hj => (ih j gg nn gg' hj).1) o
      (topoList g root).reverse (setGrad g root 1) g' h
    exact ⟨presStruct_trans (setGrad_pres g root 1).1 hs,
      fun h1 => presHog_trans (setGrad_pres g root 1).2 (hh h1)⟩

/-- The higher-order loop only queries the nested engine at orders between 1
and `o - 1`, so engines agreeing there are interchangeable. -/
theorem hoLoopAux_congr (bw1 bw2 : Nat → St → Nat → Except String St)
    (o n : Nat)
    (hbw : ∀ j, 1 ≤ j → j ≤ o - 1 → ∀ g k, bw1 j g k = bw2 j g k) :
    ∀ (cnt : Nat), cnt ≤ o - 1 → ∀ g,
      hoLoopAux bw1 o n cnt g = hoLoopAux bw2 o n cnt g := by
  intro cnt
  induction cnt with
  | zero => intro _ g; rfl
  | succ cnt ih =>
    intro hcnt g
    rw [hoLoopAux, hoLoopAux, hbw (o - cnt - 1) (by omega) (by omega)]
    cases bw2 (o - cnt - 1) g n with
    | error e => rfl
    | ok g1 => exact ih (by omega) _

/-- The stack loop at order `o` only queries the nested engine at orders
between 1 and `o - 1`. -/
theorem stkAux_congr (M : MathModel)
    (bw1 bw2 : Nat → St → Nat → Except String St) (o : Nat)
    (hbw : ∀ j, 1 ≤ j → j ≤ o - 1 → ∀ g k, bw1 j g k = bw2 j g k) :
    ∀ (L : List Nat) (g : St), stkAux M bw1 o L g = stkAux M bw2 o L g := by
  intro L
  induction L with
  | nil => intro g; rfl
  | cons n rest ih =>
    intro g
    rw [stkAux, stkAux]
    cases runRule M g n with
    | error e => rfl
    | ok g1 =>
      dsimp only
      by_cases ho : 1 < o
      · rw [if_pos ho, if_pos ho,
          hoLoopAux_congr bw1 bw2 o n hbw (o - 1) (Nat.le_refl _)]
        cases hoLoopAux bw2 o n (o - 1) (setHogN g1 n 1 (gradOf g1 n)) with
        | error e => rfl
        | ok g2 => exact ih g2
      · rw [if_neg ho, if_neg ho]
        exact ih g1

/-- The recursion budget of the backward engine is irrelevant as long as it
is at least the order: every nested `backward(i - 1)` call runs at a strictly
smaller order, so fuel equal to the order (what `backward` passes) computes
the same pass as any larger budget.  The fuel is therefore a termination
device only, not part of the semantics. -/
theorem bwFuel_fuel_irrel (M : MathModel) :
    ∀ (o : Nat), 1 ≤ o → ∀ (f1 f2 : Nat), o ≤ f1 → o ≤ f2 →
      ∀ (g : St) (root : Nat), bwFuel M f1 o g root = bwFuel M f2 o g root := by
  intro o
  induction o using Nat.strong_induction_on with
  | _ o ih =>
    intro ho f1 f2 h1 h2 g root
    obtain ⟨a, rfl⟩ : ∃ a, f1 = a + 1 := ⟨f1 - 1, by omega⟩
    obtain ⟨b, rfl⟩ : ∃ b, f2 = b + 1 := ⟨f2 - 1, by omega⟩
    rw [bwFuel, bwFuel]
    exact stkAux_congr M (bwFuel M a) (bwFuel M b) o
      (fun j hj1 hj2 g' k =>
        ih j (by omega) hj1 a b (by omega) (by omega) g' k)
      (topoList g root).reverse (setGrad g root 1)

/-- C10.  A completed `backward()` pass mutates only gradients (and, for
order > 1, the higher-order gradient caches): the arena size and every
node's `data`, `children`, `operation`, `label` and installed closure are
identical before and after, and for the default order 1 every cache is also
untouched. -/
theorem c10_backward_frame (M : MathModel) (g : St) (root : Nat)
    (order : Int) (g' : St) (h : backward M g root order = Except.ok g') :
    presStruct g g' ∧ (order = 1 → presHog g g') := by
  rw [backward] at h
  split at h
  · cases h
  · obtain ⟨hs, hh⟩ := bwFuel_pres M order.toNat order.toNat g root g' h
    exact ⟨hs, fun h1 => hh (by rw [h1]; decide)⟩

/-- C6.  After `resetGrad()` on a node, every node reachable from it through
`children` (the traversal deduplicates by id) has gradient `0` and an empty
higher-order gradient cache; in particular this holds for the graph left by
any completed `backward()` pass, whose structure is unchanged. -/
theorem c6_reset_grad_zeroes_reachable (g : St) (root : Nat) (hA : Acyc g)
    (hroot : root < g.nodes.length) :
    (∀ m, Reach (chSt g) root m →
      ((resetGrad g root).get m).grad = 0 ∧
      ((resetGrad g root).get m).hog = []) ∧
    (∀ (M : MathModel) (order : Int) (g' : St),
      backward M g root order = Except.ok g' →
      ∀ m, Reach (chSt g) root m →
        ((resetGrad g' root).get m).grad = 0 ∧
        ((resetGrad g' root).get m).hog = []) := by
  refine ⟨resetGrad_reach_zero g root hA hroot, ?_⟩
  intro M order g' hb m hm
  rw [backward] at hb
  split at hb
  · cases hb
  · obtain ⟨⟨hlen, hf⟩, _⟩ := bwFuel_pres M order.toNat order.toNat g root g' hb
    have hch : ∀ x, chSt g' x = chSt g x := fun x => (hf x).2.1
    have hA' : Acyc g' := by
      intro n hn c hc
      rw [hlen] at hn
      refine hA n hn c ?_
      have hx := hch n
      simp only [chSt] at hx
      rw [← hx]
      exact hc
    have hroot' : root < g'.nodes.length := by rw [hlen]; exact hroot
    exact resetGrad_reach_zero g' root hA' hroot' m
      (reach_congr (fun x => (hch x).symm) hm)

/-- Witness for C6: in the diamond graph after `backward()` (gradients 12,
3, 1), `resetGrad()` zeroes the reachable leaf. -/
theorem c6_reset_grad_zeroes_reachable_witness :
    ((resetGrad gB1 2).get 0).grad = 0 ∧ ((resetGrad gB1 2).get 0).hog = [] :=
  (c6_reset_grad_zeroes_reachable gB1 2 (by decide) (by decide)).1 0
    (Reach.head (by decide) (Reach.refl 0))

/-- Witness for C10: the order-1 pass on the diamond graph keeps node 0's
`data` and cache. -/
theorem c10_backward_frame_witness :
    ((resSt (backward Mstd gC1 2 1)).get 0).data = (gC1.get 0).data ∧
    ((resSt (backward Mstd gC1 2 1)).get 0).hog = (gC1.get 0).hog :=
  ⟨((c10_backward_frame Mstd gC1 2 1 (resSt (backward Mstd gC1 2 1))
      (by rfl)).1.2 0).1,
   (c10_backward_frame Mstd gC1 2 1 (resSt (backward Mstd gC1 2 1))
      (by rfl)).2 rfl 0⟩

end

end Micrograd
